import Mathlib

/-!
Verification of the interval cut solver and axis adjuster of
`kml-path-lifter.py`.

The numeric values of the program (mpmath `mpf` coordinates) are modelled
by exact rationals `ℚ`; the algorithm only uses comparison, `+`, `-`,
division by `2` and Python's `%` with a positive modulus, all of which are
exact on `ℚ`.
-/

namespace KmlPathLifter

/-- Python's `%` operator for a positive real modulus: `a % m = a - m * ⌊a / m⌋`,
the representative in `[0, m)`.  (The program only ever uses a strictly
positive modulus, 360 or 180.) -/
def pymod (a m : ℚ) : ℚ := a - m * (⌊a / m⌋ : ℚ)

/-- `minn` from the source: `min` lifted over `None`. -/
def minn : Option ℚ → Option ℚ → Option ℚ
  | none, b => b
  | some a, none => some a
  | some a, some b => some (min a b)

/-- `maxn` from the source: `max` lifted over `None`. -/
def maxn : Option ℚ → Option ℚ → Option ℚ
  | none, b => b
  | some a, none => some a
  | some a, some b => some (max a b)

/-- The loop state of `lift`: the cut interval bounds `o0`, `o1`
(`None` = unset) and the list of keep pairs. -/
structure LiftState where
  o0 : Option ℚ
  o1 : Option ℚ
  keep : List (ℚ × ℚ)
deriving Repr, DecidableEq

/-- One iteration of the arc-classification loop of `lift`: classify the
adjacent pair `(x, y)` and update the bounds or the keep list. -/
def arcStep (m : ℚ) (st : LiftState) (p : ℚ × ℚ) : LiftState :=
  if pymod (p.1 - p.2) m < pymod (p.2 - p.1) m then
    -- wants y < x
    if p.1 < p.2 then
      { st with o0 := maxn st.o0 (some p.1), o1 := minn st.o1 (some p.2) }
    else
      { st with keep := st.keep ++ [(p.2, p.1)] }
  else
    -- wants x < y
    if p.2 < p.1 then
      { st with o0 := maxn st.o0 (some p.2), o1 := minn st.o1 (some p.1) }
    else
      { st with keep := st.keep ++ [(p.1, p.2)] }

/-- The adjacent pairs of the list: `list(zip(l, l[1:]))`. -/
def arcsOf (l : List ℚ) : List (ℚ × ℚ) := l.zip l.tail

/-- First keep-validation loop of `lift`: for each keep pair `(x, y)`,
if `x ≤ o0` then `o0 = max(o0, y)`.  The accumulator is `o0`. -/
def keepLo (o0 : ℚ) (keep : List (ℚ × ℚ)) : ℚ :=
  keep.foldl (fun a p => if p.1 ≤ a then max a p.2 else a) o0

/-- Second keep-validation loop of `lift`: for each keep pair `(x, y)`,
if `x > o0` then `o1 = min(o1, x)`.  `o0` is fixed; the accumulator is `o1`. -/
def keepHi (o0 o1 : ℚ) (keep : List (ℚ × ℚ)) : ℚ :=
  keep.foldl (fun b p => if o0 < p.1 then min b p.1 else b) o1

/-- `lift(l, m)` from the source: the interval cut solver.  Returns the cut
threshold, or `none` when there is no violating arc or no single cut works.
(In the source, when `o0` is set, `o1` is always set too — see
`boundLo_eq_none_iff_boundHi`; the fall-through `none` of the final match is
unreachable.) -/
def lift (l : List ℚ) (m : ℚ) : Option ℚ :=
  let st := (arcsOf l).foldl (arcStep m) ⟨none, none, []⟩
  match st.o0, st.o1 with
  | some o0, some o1 =>
    if o0 ≥ o1 then none
    else
      let o0v := keepLo o0 st.keep
      let o1v := keepHi o0v o1 st.keep
      if o0v ≥ o1v then none
      else some (o0v + (o1v - o0v) / 2)
  | _, _ => none

/-- A coordinate triple, as in class `Coordinates` of the source. -/
structure Coordinates where
  longitude : ℚ
  latitude : ℚ
  z : ℚ
deriving Repr, DecidableEq

/-- The longitude pass of `process_kml`: solve on the longitudes with
period 360; when a cut is returned, add 360 to every longitude strictly
below it and report `true`. -/
def adjustLon (l : List Coordinates) : List Coordinates × Bool :=
  match lift (l.map Coordinates.longitude) 360 with
  | some o =>
    (l.map fun c =>
      if c.longitude < o then { c with longitude := c.longitude + 360 } else c,
     true)
  | none => (l, false)

/-- The latitude pass of `process_kml`: solve on the latitudes with
period 180; when a cut is returned, add 180 to every latitude strictly
below it and report `true`. -/
def adjustLat (l : List Coordinates) : List Coordinates × Bool :=
  match lift (l.map Coordinates.latitude) 180 with
  | some o =>
    (l.map fun c =>
      if c.latitude < o then { c with latitude := c.latitude + 180 } else c,
     true)
  | none => (l, false)

/-- The per-path body of `process_kml`: adjust the longitudes, then adjust
the latitudes of the result, and report whether either pass changed
anything. -/
def processPath (l : List Coordinates) : List Coordinates × Bool :=
  let r1 := adjustLon l
  let r2 := adjustLat r1.1
  (r2.1, r1.2 || r2.2)

/-- Applying a cut threshold `o` to an axis sequence: add the period `m`
to every value strictly below `o` (the loop body of the adjuster). -/
def applyCut (l : List ℚ) (m o : ℚ) : List ℚ :=
  l.map fun v => if v < o then v + m else v

/-- Evaluation rule for `pymod`: if `a = m * k + r` with `0 ≤ r < m` for an
integer `k`, then `pymod a m = r`. -/
theorem pymod_eq (a m r : ℚ) (k : ℤ) (h : a = m * k + r) (h0 : 0 ≤ r)
    (h1 : r < m) : pymod a m = r := by
  have hm : 0 < m := h0.trans_lt h1
  have hdiv : a / m = k + r / m := by
    field_simp
    linarith [h]
  have hk : ⌊a / m⌋ = k := by
    rw [Int.floor_eq_iff]
    constructor
    · rw [hdiv]
      have : 0 ≤ r / m := div_nonneg h0 hm.le
      linarith
    · rw [hdiv]
      have : r / m < 1 := (div_lt_one hm).mpr h1
      linarith
  unfold pymod
  rw [hk]
  linarith [h]

/-- The constraint interval `(lo, hi)` contributed by an adjacent pair when
it is a violating arc (raw order contradicts the wanted short direction),
`none` when it is a keep arc.  Read off from the two branches of the
classification loop of `lift`. -/
def vioOf (m : ℚ) (p : ℚ × ℚ) : Option (ℚ × ℚ) :=
  if pymod (p.1 - p.2) m < pymod (p.2 - p.1) m then
    if p.1 < p.2 then some (p.1, p.2) else none
  else
    if p.2 < p.1 then some (p.2, p.1) else none

/-- The keep pair `(lo, hi)` recorded for an adjacent pair when it already
satisfies the wanted short direction, `none` when it is violating. -/
def keepOf (m : ℚ) (p : ℚ × ℚ) : Option (ℚ × ℚ) :=
  if pymod (p.1 - p.2) m < pymod (p.2 - p.1) m then
    if p.1 < p.2 then none else some (p.2, p.1)
  else
    if p.2 < p.1 then none else some (p.1, p.2)

/-- `bound_lo` of the spec: the running maximum of the lower ends of the
violating-arc constraint intervals (`none` = unset). -/
def boundLo (l : List ℚ) (m : ℚ) : Option ℚ :=
  ((arcsOf l).filterMap (vioOf m)).foldl (fun a p => maxn a (some p.1)) none

/-- `bound_hi` of the spec: the running minimum of the upper ends of the
violating-arc constraint intervals (`none` = unset). -/
def boundHi (l : List ℚ) (m : ℚ) : Option ℚ :=
  ((arcsOf l).filterMap (vioOf m)).foldl (fun b p => minn b (some p.2)) none

/-- The keep list accumulated by the classification loop. -/
def keeps (l : List ℚ) (m : ℚ) : List (ℚ × ℚ) :=
  (arcsOf l).filterMap (keepOf m)

/-- Decomposition of the classification loop: the fused fold of `lift`
computes exactly the two bound folds over the violating intervals and the
keep list. -/
theorem foldl_arcStep (m : ℚ) (arcs : List (ℚ × ℚ)) (st : LiftState) :
    arcs.foldl (arcStep m) st =
      ⟨(arcs.filterMap (vioOf m)).foldl (fun a p => maxn a (some p.1)) st.o0,
       (arcs.filterMap (vioOf m)).foldl (fun b p => minn b (some p.2)) st.o1,
       st.keep ++ arcs.filterMap (keepOf m)⟩ := by
  induction arcs generalizing st with
  | nil => simp
  | cons p rest ih =>
    rw [List.foldl_cons, ih]
    by_cases h1 : pymod (p.1 - p.2) m < pymod (p.2 - p.1) m
    · by_cases h2 : p.1 < p.2
      · simp [arcStep, vioOf, keepOf, h1, h2]
      · simp [arcStep, vioOf, keepOf, h1, h2]
    · by_cases h2 : p.2 < p.1
      · simp [arcStep, vioOf, keepOf, h1, h2]
      · simp [arcStep, vioOf, keepOf, h1, h2]

/-- `lift` expressed through the decomposed bounds and keep list. -/
theorem lift_eq (l : List ℚ) (m : ℚ) :
    lift l m =
      match boundLo l m, boundHi l m with
      | some o0, some o1 =>
        if o0 ≥ o1 then none
        else
          let o0v := keepLo o0 (keeps l m)
          let o1v := keepHi o0v o1 (keeps l m)
          if o0v ≥ o1v then none
          else some (o0v + (o1v - o0v) / 2)
      | _, _ => none := by
  unfold lift boundLo boundHi keeps
  rw [foldl_arcStep]
  rfl

/-- Folding `maxn` from a set accumulator never yields `none`. -/
theorem foldl_maxn_ne_none (ps : List (ℚ × ℚ)) (x : ℚ) :
    ps.foldl (fun a p => maxn a (some p.1)) (some x) ≠ none := by
  induction ps generalizing x with
  | nil => simp
  | cons q rest ih => simpa [maxn] using ih (max x q.1)

/-- Folding `minn` from a set accumulator never yields `none`. -/
theorem foldl_minn_ne_none (ps : List (ℚ × ℚ)) (x : ℚ) :
    ps.foldl (fun b p => minn b (some p.2)) (some x) ≠ none := by
  induction ps generalizing x with
  | nil => simp
  | cons q rest ih => simpa [minn] using ih (min x q.2)

/-- `bound_lo` is unset exactly when no arc was classified as violating. -/
theorem boundLo_eq_none_iff (l : List ℚ) (m : ℚ) :
    boundLo l m = none ↔ (arcsOf l).filterMap (vioOf m) = [] := by
  unfold boundLo
  cases h : (arcsOf l).filterMap (vioOf m) with
  | nil => simp
  | cons q rest =>
    simp only [List.foldl_cons, h]
    constructor
    · intro hc
      exact absurd (by simpa [maxn] using hc) (foldl_maxn_ne_none rest q.1)
    · intro hc
      exact absurd hc (List.cons_ne_nil q rest)

/-- `bound_hi` is unset exactly when no arc was classified as violating. -/
theorem boundHi_eq_none_iff (l : List ℚ) (m : ℚ) :
    boundHi l m = none ↔ (arcsOf l).filterMap (vioOf m) = [] := by
  unfold boundHi
  cases h : (arcsOf l).filterMap (vioOf m) with
  | nil => simp
  | cons q rest =>
    simp only [List.foldl_cons, h]
    constructor
    · intro hc
      exact absurd (by simpa [minn] using hc) (foldl_minn_ne_none rest q.2)
    · intro hc
      exact absurd hc (List.cons_ne_nil q rest)

/-- In `lift`, `o0` and `o1` are always set together: the fall-through case
of the final match (one bound set, the other not) is unreachable. -/
theorem boundLo_eq_none_iff_boundHi (l : List ℚ) (m : ℚ) :
    boundLo l m = none ↔ boundHi l m = none := by
  rw [boundLo_eq_none_iff, boundHi_eq_none_iff]

/-- Both components of an adjacent pair are values of the list. -/
theorem mem_of_mem_arcsOf {l : List ℚ} {p : ℚ × ℚ} (hp : p ∈ arcsOf l) :
    p.1 ∈ l ∧ p.2 ∈ l := by
  obtain ⟨x, y⟩ := p
  unfold arcsOf at hp
  exact ⟨(List.of_mem_zip hp).1, List.mem_of_mem_tail (List.of_mem_zip hp).2⟩

/-- Both ends of a violating-arc constraint interval are values of the list. -/
theorem mem_of_mem_vio {l : List ℚ} {m : ℚ} {q : ℚ × ℚ}
    (hq : q ∈ (arcsOf l).filterMap (vioOf m)) : q.1 ∈ l ∧ q.2 ∈ l := by
  rw [List.mem_filterMap] at hq
  obtain ⟨p, hp, he⟩ := hq
  obtain ⟨h1, h2⟩ := mem_of_mem_arcsOf hp
  unfold vioOf at he
  split_ifs at he <;> simp only [Option.some.injEq] at he <;> subst he
  · exact ⟨h1, h2⟩
  · exact ⟨h2, h1⟩

/-- Both ends of a keep pair are values of the list. -/
theorem mem_of_mem_keeps {l : List ℚ} {m : ℚ} {q : ℚ × ℚ}
    (hq : q ∈ keeps l m) : q.1 ∈ l ∧ q.2 ∈ l := by
  unfold keeps at hq
  rw [List.mem_filterMap] at hq
  obtain ⟨p, hp, he⟩ := hq
  obtain ⟨h1, h2⟩ := mem_of_mem_arcsOf hp
  unfold keepOf at he
  split_ifs at he <;> simp only [Option.some.injEq] at he <;> subst he
  · exact ⟨h2, h1⟩
  · exact ⟨h1, h2⟩

/-- The `maxn` bound fold stays inside the list values. -/
theorem foldl_maxn_mem {l : List ℚ} :
    ∀ (ps : List (ℚ × ℚ)) (acc : Option ℚ), (∀ q ∈ ps, q.1 ∈ l) →
      (∀ v, acc = some v → v ∈ l) →
      ∀ v, ps.foldl (fun a p => maxn a (some p.1)) acc = some v → v ∈ l := by
  intro ps
  induction ps with
  | nil => exact fun acc _ h2 v hv => h2 v hv
  | cons q rest ih =>
    intro acc h1 h2 v hv
    rw [List.foldl_cons] at hv
    refine ih (maxn acc (some q.1)) (fun r hr => h1 r (List.mem_cons_of_mem _ hr)) ?_ v hv
    intro w hw
    cases acc with
    | none =>
      simp only [maxn, Option.some.injEq] at hw
      rw [← hw]
      exact h1 q (List.mem_cons_self _ _)
    | some u =>
      simp only [maxn, Option.some.injEq] at hw
      rcases max_choice u q.1 with hc | hc <;> rw [← hw, hc]
      · exact h2 u rfl
      · exact h1 q (List.mem_cons_self _ _)

/-- The `minn` bound fold stays inside the list values. -/
theorem foldl_minn_mem {l : List ℚ} :
    ∀ (ps : List (ℚ × ℚ)) (acc : Option ℚ), (∀ q ∈ ps, q.2 ∈ l) →
      (∀ v, acc = some v → v ∈ l) →
      ∀ v, ps.foldl (fun b p => minn b (some p.2)) acc = some v → v ∈ l := by
  intro ps
  induction ps with
  | nil => exact fun acc _ h2 v hv => h2 v hv
  | cons q rest ih =>
    intro acc h1 h2 v hv
    rw [List.foldl_cons] at hv
    refine ih (minn acc (some q.2)) (fun r hr => h1 r (List.mem_cons_of_mem _ hr)) ?_ v hv
    intro w hw
    cases acc with
    | none =>
      simp only [minn, Option.some.injEq] at hw
      rw [← hw]
      exact h1 q (List.mem_cons_self _ _)
    | some u =>
      simp only [minn, Option.some.injEq] at hw
      rcases min_choice u q.2 with hc | hc <;> rw [← hw, hc]
      · exact h2 u rfl
      · exact h1 q (List.mem_cons_self _ _)

/-- The lower bound returned by the classification loop is a list value. -/
theorem boundLo_mem {l : List ℚ} {m : ℚ} {a : ℚ} (h : boundLo l m = some a) :
    a ∈ l :=
  foldl_maxn_mem _ none (fun _q hq => (mem_of_mem_vio hq).1)
    (fun _v hv => Option.noConfusion hv) a h

/-- The upper bound returned by the classification loop is a list value. -/
theorem boundHi_mem {l : List ℚ} {m : ℚ} {b : ℚ} (h : boundHi l m = some b) :
    b ∈ l :=
  foldl_minn_mem _ none (fun _q hq => (mem_of_mem_vio hq).2)
    (fun _v hv => Option.noConfusion hv) b h

/-- The first keep-validation loop keeps the bound inside the list values. -/
theorem keepLo_mem {l : List ℚ} :
    ∀ (ks : List (ℚ × ℚ)) (a : ℚ), (∀ q ∈ ks, q.2 ∈ l) → a ∈ l →
      keepLo a ks ∈ l := by
  intro ks
  induction ks with
  | nil => exact fun a _ ha => ha
  | cons q rest ih =>
    intro a h1 ha
    unfold keepLo
    rw [List.foldl_cons]
    refine ih _ (fun r hr => h1 r (List.mem_cons_of_mem _ hr)) ?_
    by_cases hc : q.1 ≤ a
    · rw [if_pos hc]
      rcases max_choice a q.2 with h | h <;> rw [h]
      · exact ha
      · exact h1 q (List.mem_cons_self _ _)
    · rw [if_neg hc]
      exact ha

/-- The second keep-validation loop keeps the bound inside the list values. -/
theorem keepHi_mem {l : List ℚ} :
    ∀ (ks : List (ℚ × ℚ)) (o0 b : ℚ), (∀ q ∈ ks, q.1 ∈ l) → b ∈ l →
      keepHi o0 b ks ∈ l := by
  intro ks
  induction ks with
  | nil => exact fun o0 b _ hb => hb
  | cons q rest ih =>
    intro o0 b h1 hb
    unfold keepHi
    rw [List.foldl_cons]
    refine ih o0 _ (fun r hr => h1 r (List.mem_cons_of_mem _ hr)) ?_
    by_cases hc : o0 < q.1
    · rw [if_pos hc]
      rcases min_choice b q.1 with h | h <;> rw [h]
      · exact hb
      · exact h1 q (List.mem_cons_self _ _)
    · rw [if_neg hc]
      exact hb

theorem pymod_358_360 : pymod (358 : ℚ) 360 = 358 :=
  pymod_eq _ _ _ 0 (by norm_num) (by norm_num) (by norm_num)

theorem pymod_neg358_360 : pymod (-358 : ℚ) 360 = 2 :=
  pymod_eq _ _ _ (-1) (by norm_num) (by norm_num) (by norm_num)

/-- Evaluation of the solver on the boundary example `[359, 1]` with
period `360`. -/
theorem lift_eval_boundary : lift [359, 1] 360 = some 180 := by
  norm_num [lift, arcsOf, arcStep, minn, maxn, keepLo, keepHi,
    pymod_358_360, pymod_neg358_360]

/-- C7: for fewer than two values and a strictly positive period, the solver
returns "no cut" (`none`) trivially — there are no arcs to evaluate, and no
error is possible since `lift` is a total function. -/
theorem lift_of_short_input (l : List ℚ) (m : ℚ) (hN : l.length < 2)
    (_hm : 0 < m) : lift l m = none := by
  cases l with
  | nil => rfl
  | cons a t =>
    cases t with
    | nil => rfl
    | cons b t' =>
      simp only [List.length_cons] at hN
      omega

/-- Witness for `lift_of_short_input` at the one-point list `[5]` with
period `1`. -/
theorem lift_of_short_input_witness :
    ([(5 : ℚ)] : List ℚ).length < 2 ∧ (0 : ℚ) < 1 ∧ lift [(5 : ℚ)] 1 = none :=
  ⟨by norm_num, by norm_num, lift_of_short_input [5] 1 (by norm_num) (by norm_num)⟩

/-- C4: when every adjacent pair already satisfies its shorter-direction
relation (no arc is classified as violating), the solver returns "no cut",
for any values and any strictly positive period, as soon as `N ≥ 2`. -/
theorem lift_of_all_keep (l : List ℚ) (m : ℚ) (_hN : 2 ≤ l.length)
    (_hm : 0 < m) (hk : ∀ p ∈ arcsOf l, vioOf m p = none) : lift l m = none := by
  have hfm : (arcsOf l).filterMap (vioOf m) = [] :=
    List.filterMap_eq_nil_iff.mpr hk
  have hlo : boundLo l m = none := (boundLo_eq_none_iff l m).mpr hfm
  have hhi : boundHi l m = none := (boundHi_eq_none_iff l m).mpr hfm
  rw [lift_eq, hlo, hhi]

/-- Witness for `lift_of_all_keep`: the spec's concrete no-violation case
`solve([10, 20, 30], 360)` returns "no cut". -/
theorem lift_of_all_keep_witness :
    2 ≤ ([10, 20, 30] : List ℚ).length ∧ (0 : ℚ) < 360 ∧
      lift [10, 20, 30] 360 = none := by
  have e1 : pymod (-10 : ℚ) 360 = 350 :=
    pymod_eq _ _ _ (-1) (by norm_num) (by norm_num) (by norm_num)
  have e2 : pymod (10 : ℚ) 360 = 10 :=
    pymod_eq _ _ _ 0 (by norm_num) (by norm_num) (by norm_num)
  refine ⟨by norm_num, by norm_num,
    lift_of_all_keep [10, 20, 30] 360 (by norm_num) (by norm_num) ?_⟩
  intro p hp
  simp only [arcsOf, List.zip_cons_cons, List.tail_cons, List.zip_nil_right,
    List.mem_cons, List.not_mem_nil, or_false] at hp
  rcases hp with rfl | rfl <;> norm_num [vioOf, e1, e2]

/-- C6: an adjacent pair exactly half a period apart (`(x−y) mod m` equals
`(y−x) mod m`) is classified by the forward ("wants x < y") branch of the
loop — deterministically, with no error. -/
theorem arcStep_of_tie (m x y : ℚ) (st : LiftState)
    (h : pymod (x - y) m = pymod (y - x) m) :
    arcStep m st (x, y) =
      if y < x then
        { st with o0 := maxn st.o0 (some y), o1 := minn st.o1 (some x) }
      else { st with keep := st.keep ++ [(x, y)] } := by
  unfold arcStep
  simp only [h, lt_self_iff_false, if_false]

/-- Witness for `arcStep_of_tie` at the half-period pair `(0, 180)` with
period `360`. -/
theorem arcStep_of_tie_witness :
    pymod ((0 : ℚ) - 180) 360 = pymod (180 - (0 : ℚ)) 360 ∧
      arcStep 360 ⟨none, none, []⟩ (0, 180) = ⟨none, none, [(0, 180)]⟩ := by
  have e1 : pymod (-180 : ℚ) 360 = 180 :=
    pymod_eq _ _ _ (-1) (by norm_num) (by norm_num) (by norm_num)
  have e2 : pymod (180 : ℚ) 360 = 180 :=
    pymod_eq _ _ _ 0 (by norm_num) (by norm_num) (by norm_num)
  have h : pymod ((0 : ℚ) - 180) 360 = pymod (180 - (0 : ℚ)) 360 := by
    norm_num [e1, e2]
  refine ⟨h, ?_⟩
  rw [arcStep_of_tie 360 0 180 ⟨none, none, []⟩ h]
  norm_num

/-- C5: `solve([359, 1], 360)` returns the cut `180`; applying it shifts
`1` to `361` and leaves `359` unchanged, giving `[359, 361]`. -/
theorem lift_boundary_case :
    lift [359, 1] 360 = some 180 ∧ applyCut [359, 1] 360 180 = [359, 361] :=
  ⟨lift_eval_boundary, by norm_num [applyCut]⟩

/-- C1 fails on the code: on `[2, 1, 0, 3]` with period `4` the solver
returns the cut `2`; applying it gives `[2, 5, 4, 3]`, and re-running the
solver on that adjusted sequence returns the cut `5/2`, not "no cut".
(The returned cut `2` lifts the value `1` but not the value `2`, breaking
the previously consistent keep arc `(2, 1)` — exactly what the
keep-validation pass is meant to prevent.) -/
theorem lift_not_idempotent :
    lift [2, 1, 0, 3] 4 = some 2 ∧
      applyCut [2, 1, 0, 3] 4 2 = [2, 5, 4, 3] ∧
      lift [2, 5, 4, 3] 4 = some (5 / 2) := by
  have e1 : pymod (1 : ℚ) 4 = 1 :=
    pymod_eq _ _ _ 0 (by norm_num) (by norm_num) (by norm_num)
  have e2 : pymod (-1 : ℚ) 4 = 3 :=
    pymod_eq _ _ _ (-1) (by norm_num) (by norm_num) (by norm_num)
  have e3 : pymod (-3 : ℚ) 4 = 1 :=
    pymod_eq _ _ _ (-1) (by norm_num) (by norm_num) (by norm_num)
  have e4 : pymod (3 : ℚ) 4 = 3 :=
    pymod_eq _ _ _ 0 (by norm_num) (by norm_num) (by norm_num)
  refine ⟨?_, by norm_num [applyCut], ?_⟩
  · norm_num [lift, arcsOf, arcStep, minn, maxn, keepLo, keepHi, e1, e2, e3, e4]
  · norm_num [lift, arcsOf, arcStep, minn, maxn, keepLo, keepHi, e1, e2, e3, e4]

/-- C10: whenever the solver returns a cut threshold `o`, `o` lies strictly
between two values occurring in the input list; hence applying the cut
shifts at least one value (one strictly below `o`) and never shifts all of
them (one is strictly above `o`). -/
theorem lift_cut_strictly_between (l : List ℚ) (m : ℚ) (o : ℚ)
    (h : lift l m = some o) : (∃ x ∈ l, x < o) ∧ (∃ y ∈ l, o < y) := by
  rw [lift_eq] at h
  rcases hlo : boundLo l m with _ | a <;> rw [hlo] at h
  · rcases hhi : boundHi l m with _ | b <;> rw [hhi] at h <;>
      exact Option.noConfusion h
  rcases hhi : boundHi l m with _ | b <;> rw [hhi] at h
  · exact Option.noConfusion h
  simp only at h
  split_ifs at h with h1 h2
  rw [Option.some.injEq] at h
  have hks1 : ∀ q ∈ keeps l m, q.2 ∈ l := fun q hq => (mem_of_mem_keeps hq).2
  have hks2 : ∀ q ∈ keeps l m, q.1 ∈ l := fun q hq => (mem_of_mem_keeps hq).1
  have hmem0 : keepLo a (keeps l m) ∈ l :=
    keepLo_mem (keeps l m) a hks1 (boundLo_mem hlo)
  have hmem1 : keepHi (keepLo a (keeps l m)) b (keeps l m) ∈ l :=
    keepHi_mem (keeps l m) (keepLo a (keeps l m)) b hks2 (boundHi_mem hhi)
  rw [not_le] at h2
  constructor
  · exact ⟨keepLo a (keeps l m), hmem0, by rw [← h]; linarith⟩
  · exact ⟨keepHi (keepLo a (keeps l m)) b (keeps l m), hmem1, by
      rw [← h]; linarith⟩

/-- Witness for `lift_cut_strictly_between` at `[359, 1]` with period `360`,
whose cut is `180`. -/
theorem lift_cut_strictly_between_witness :
    lift [359, 1] 360 = some 180 ∧
      ((∃ x ∈ ([359, 1] : List ℚ), x < 180) ∧
        (∃ y ∈ ([359, 1] : List ℚ), (180 : ℚ) < y)) :=
  ⟨lift_eval_boundary,
    lift_cut_strictly_between [359, 1] 360 180 lift_eval_boundary⟩

/-- C3: the solver returns "no cut" exactly when the lower bound is unset
(no violating arc) or the constraint interval is empty (`bound_lo ≥
bound_hi`), checked both before and after the keep-validation pass;
otherwise it returns the midpoint of the final interval. -/
theorem lift_none_characterization (l : List ℚ) (m : ℚ) :
    (lift l m = none ↔
      boundLo l m = none ∨
      ∃ a b, boundLo l m = some a ∧ boundHi l m = some b ∧
        (b ≤ a ∨
          keepHi (keepLo a (keeps l m)) b (keeps l m) ≤ keepLo a (keeps l m))) ∧
    (∀ a b, boundLo l m = some a → boundHi l m = some b → a < b →
      keepLo a (keeps l m) < keepHi (keepLo a (keeps l m)) b (keeps l m) →
      lift l m = some (keepLo a (keeps l m) +
        (keepHi (keepLo a (keeps l m)) b (keeps l m) -
          keepLo a (keeps l m)) / 2)) := by
  rcases hlo : boundLo l m with _ | a
  · have hhi : boundHi l m = none := (boundLo_eq_none_iff_boundHi l m).mp hlo
    constructor
    · rw [lift_eq, hlo, hhi]
      simp
    · intro a b ha _ _ _
      exact Option.noConfusion ha
  · rcases hhi : boundHi l m with _ | b
    · exact absurd ((boundLo_eq_none_iff_boundHi l m).mpr hhi)
        (by rw [hlo]; exact fun hc => Option.noConfusion hc)
    constructor
    · rw [lift_eq, hlo, hhi]
      simp only [Option.some.injEq]
      split_ifs with h1 h2
      · exact iff_of_true rfl (Or.inr ⟨a, b, rfl, rfl, Or.inl h1⟩)
      · exact iff_of_true rfl (Or.inr ⟨a, b, rfl, rfl, Or.inr h2⟩)
      · rw [false_iff]
        rintro (hc | ⟨a', b', rfl, rfl, hc | hc⟩)
        · exact hc
        · exact h1 hc
        · exact h2 hc
    · intro a' b' ha' hb' hab hvalid
      rw [Option.some.injEq] at ha' hb'
      subst ha'
      subst hb'
      rw [lift_eq, hlo, hhi]
      simp only
      split_ifs with h1 h2
      · exact absurd h1 (not_le.mpr hab)
      · exact absurd h2 (not_le.mpr hvalid)
      · rfl

/-- Witness for `lift_none_characterization`: on `[359, 1]` with period
`360` the bounds are set to `1` and `359`, they pass both emptiness checks,
and the solver returns the midpoint `180`. -/
theorem lift_none_characterization_witness :
    boundLo [359, 1] 360 = some 1 ∧ boundHi [359, 1] 360 = some 359 ∧
      lift [359, 1] 360 = some 180 := by
  have hb1 : boundLo [359, 1] 360 = some 1 := by
    norm_num [boundLo, arcsOf, vioOf, maxn, List.filterMap_cons,
      List.filterMap_nil, pymod_358_360, pymod_neg358_360]
  have hb2 : boundHi [359, 1] 360 = some 359 := by
    norm_num [boundHi, arcsOf, vioOf, minn, List.filterMap_cons,
      List.filterMap_nil, pymod_358_360, pymod_neg358_360]
  have hk : keeps [359, 1] 360 = [] := by
    norm_num [keeps, arcsOf, keepOf, List.filterMap_cons,
      List.filterMap_nil, pymod_358_360, pymod_neg358_360]
  have hv : keepLo 1 (keeps [359, 1] 360) <
      keepHi (keepLo 1 (keeps [359, 1] 360)) 359 (keeps [359, 1] 360) := by
    norm_num [hk, keepLo, keepHi]
  have h := (lift_none_characterization [359, 1] 360).2 1 359 hb1 hb2
    (by norm_num) hv
  rw [hk] at h
  norm_num [keepLo, keepHi] at h
  exact ⟨hb1, hb2, h⟩

/-- C2: the Axis Adjuster contract for both axes.  When the solver returns
a threshold `o` for an axis, exactly the coordinates whose selected field is
strictly below `o` get the period added to that field, every other field
value is untouched, and the pass reports `true`; when the solver returns
"no cut" the path is returned untouched with `false`. -/
theorem adjuster_contract (l : List Coordinates) :
    ((∀ o, lift (l.map Coordinates.longitude) 360 = some o →
        (adjustLon l).2 = true ∧
        ∀ i, i < l.length →
          ((adjustLon l).1.getD i ⟨0, 0, 0⟩).longitude =
            (if (l.getD i ⟨0, 0, 0⟩).longitude < o
             then (l.getD i ⟨0, 0, 0⟩).longitude + 360
             else (l.getD i ⟨0, 0, 0⟩).longitude) ∧
          ((adjustLon l).1.getD i ⟨0, 0, 0⟩).latitude =
            (l.getD i ⟨0, 0, 0⟩).latitude ∧
          ((adjustLon l).1.getD i ⟨0, 0, 0⟩).z = (l.getD i ⟨0, 0, 0⟩).z) ∧
      (lift (l.map Coordinates.longitude) 360 = none →
        adjustLon l = (l, false))) ∧
    ((∀ o, lift (l.map Coordinates.latitude) 180 = some o →
        (adjustLat l).2 = true ∧
        ∀ i, i < l.length →
          ((adjustLat l).1.getD i ⟨0, 0, 0⟩).latitude =
            (if (l.getD i ⟨0, 0, 0⟩).latitude < o
             then (l.getD i ⟨0, 0, 0⟩).latitude + 180
             else (l.getD i ⟨0, 0, 0⟩).latitude) ∧
          ((adjustLat l).1.getD i ⟨0, 0, 0⟩).longitude =
            (l.getD i ⟨0, 0, 0⟩).longitude ∧
          ((adjustLat l).1.getD i ⟨0, 0, 0⟩).z = (l.getD i ⟨0, 0, 0⟩).z) ∧
      (lift (l.map Coordinates.latitude) 180 = none →
        adjustLat l = (l, false))) := by
  constructor
  · constructor
    · intro o ho
      unfold adjustLon
      rw [ho]
      refine ⟨rfl, ?_⟩
      intro i hi
      have hi' : i < (l.map fun c =>
          if c.longitude < o then { c with longitude := c.longitude + 360 }
          else c).length := by
        rw [List.length_map]
        exact hi
      rw [List.getD_eq_getElem _ _ hi', List.getD_eq_getElem _ _ hi,
        List.getElem_map]
      by_cases hc : l[i].longitude < o
      · simp [hc]
      · simp [hc]
    · intro ho
      unfold adjustLon
      rw [ho]
  · constructor
    · intro o ho
      unfold adjustLat
      rw [ho]
      refine ⟨rfl, ?_⟩
      intro i hi
      have hi' : i < (l.map fun c =>
          if c.latitude < o then { c with latitude := c.latitude + 180 }
          else c).length := by
        rw [List.length_map]
        exact hi
      rw [List.getD_eq_getElem _ _ hi', List.getD_eq_getElem _ _ hi,
        List.getElem_map]
      by_cases hc : l[i].latitude < o
      · simp [hc]
      · simp [hc]
    · intro ho
      unfold adjustLat
      rw [ho]

/-- Witness for `adjuster_contract` on the two-point path
`[(359, 10, 7), (1, 20, 8)]`: the longitude pass (cut `180`) lifts the
second longitude to `361`, leaves its latitude at `20` and reports `true`;
the latitude pass finds no cut and leaves the path untouched. -/
theorem adjuster_contract_witness :
    (adjustLon [⟨359, 10, 7⟩, ⟨1, 20, 8⟩]).2 = true ∧
      ((adjustLon [⟨359, 10, 7⟩, ⟨1, 20, 8⟩]).1.getD 1 ⟨0, 0, 0⟩).longitude =
        361 ∧
      ((adjustLon [⟨359, 10, 7⟩, ⟨1, 20, 8⟩]).1.getD 1 ⟨0, 0, 0⟩).latitude =
        20 ∧
      adjustLat [⟨359, 10, 7⟩, ⟨1, 20, 8⟩] =
        ([⟨359, 10, 7⟩, ⟨1, 20, 8⟩], false) := by
  have hlon : lift (([⟨359, 10, 7⟩, ⟨1, 20, 8⟩] :
      List Coordinates).map Coordinates.longitude) 360 = some 180 := by
    show lift [359, 1] 360 = some 180
    exact lift_eval_boundary
  have hlat : lift (([⟨359, 10, 7⟩, ⟨1, 20, 8⟩] :
      List Coordinates).map Coordinates.latitude) 180 = none := by
    show lift [10, 20] 180 = none
    have e1 : pymod (-10 : ℚ) 180 = 170 :=
      pymod_eq _ _ _ (-1) (by norm_num) (by norm_num) (by norm_num)
    have e2 : pymod (10 : ℚ) 180 = 10 :=
      pymod_eq _ _ _ 0 (by norm_num) (by norm_num) (by norm_num)
    norm_num [lift, arcsOf, arcStep, minn, maxn, keepLo, keepHi, e1, e2]
  obtain ⟨ht, hpt⟩ :=
    (adjuster_contract [⟨359, 10, 7⟩, ⟨1, 20, 8⟩]).1.1 180 hlon
  have h1 := hpt 1 (by norm_num)
  have hL : (([⟨359, 10, 7⟩, ⟨1, 20, 8⟩] : List Coordinates).getD 1
      ⟨0, 0, 0⟩) = ⟨1, 20, 8⟩ := rfl
  refine ⟨ht, ?_, ?_, (adjuster_contract [⟨359, 10, 7⟩, ⟨1, 20, 8⟩]).2.2 hlat⟩
  · rw [h1.1, hL]
    norm_num
  · rw [h1.2.1, hL]

/-- The longitude pass never changes any latitude or altitude, and its
result has the same length as its input. -/
theorem adjustLon_map_z (l : List Coordinates) :
    (adjustLon l).1.map Coordinates.z = l.map Coordinates.z := by
  unfold adjustLon
  cases h : lift (l.map Coordinates.longitude) 360 with
  | none => rfl
  | some o =>
    simp only [List.map_map]
    refine List.map_congr_left fun c _ => ?_
    by_cases hc : c.longitude < o <;> simp [hc]

/-- The latitude pass never changes any altitude. -/
theorem adjustLat_map_z (l : List Coordinates) :
    (adjustLat l).1.map Coordinates.z = l.map Coordinates.z := by
  unfold adjustLat
  cases h : lift (l.map Coordinates.latitude) 180 with
  | none => rfl
  | some o =>
    simp only [List.map_map]
    refine List.map_congr_left fun c _ => ?_
    by_cases hc : c.latitude < o <;> simp [hc]

/-- C8: altitude is opaque payload — for every processed path, the sequence
of altitude values of the output equals that of the input, whether or not
either axis changed. -/
theorem processPath_preserves_z (l : List Coordinates) :
    (processPath l).1.map Coordinates.z = l.map Coordinates.z := by
  show (adjustLat (adjustLon l).1).1.map Coordinates.z = l.map Coordinates.z
  rw [adjustLat_map_z, adjustLon_map_z]

end KmlPathLifter
